import Mathlib

/-!
# Verification of the midnight fetcher hash engine against its specification

A shallow embedding of the Rust sources of the `hashengine` crate
(`validation.rs`, `preimage.rs`, `hashengine.rs`, `bin/server.rs`)
together with proofs of the specified properties.

Machine integers are modelled as `Nat` with explicit reduction modulo
`2 ^ 64` (`u64`), `2 ^ 32` (`u32`) or `256` (`u8`) exactly where the
Rust code wraps.  Byte strings are `List Nat` with every byte below
`256`; Rust `&str` values are Lean `String`s, and the Rust byte length
of a string coincides with the character count on the ASCII strings the
validation code accepts (a non-ASCII string always fails hex decoding
before any byte-position-sensitive operation runs).

The external crates are modelled as follows:
* `hex::decode` and `u32::from_str_radix(_, 16)` are implemented
  concretely (including the leading plus sign that `from_str_radix`
  accepts and `hex::decode` rejects);
* `blake2b_simd` digests and the Argon2 `hprime` expansion are pure
  external primitives, so the embedding is parametric in them
  (`DigestSpec`, `HPrimeSpec`): every theorem holds for any
  implementation of the two interfaces.
-/

namespace Eng

/-! ## Hex decoding (the `hex` crate) and `u32::from_str_radix` -/

/-- The numeric value of one hex digit: `0-9`, `a-f`, `A-F`. -/
def hexDigitVal? (c : Char) : Option Nat :=
  if 48 ≤ c.toNat ∧ c.toNat ≤ 57 then some (c.toNat - 48)
  else if 97 ≤ c.toNat ∧ c.toNat ≤ 102 then some (c.toNat - 87)
  else if 65 ≤ c.toNat ∧ c.toNat ≤ 70 then some (c.toNat - 55)
  else none

/-- `hex::decode` on a character list: two hex digits per byte, failing on an
odd number of characters or on any non-hex character. -/
def decodePairs : List Char → Option (List Nat)
  | [] => some []
  | [_] => none
  | c1 :: c2 :: rest => do
      let hi ← hexDigitVal? c1
      let lo ← hexDigitVal? c2
      let tail ← decodePairs rest
      pure ((hi * 16 + lo) :: tail)

/-- `hex::decode` on a string. -/
def hexDecode (s : String) : Option (List Nat) :=
  decodePairs s.data

/-- The fold step of `u32::from_str_radix(_, 16)`: checked multiply-add,
failing on a non-digit or on overflow past `u32::MAX`. -/
def parseHexDigits (cs : List Char) : Option Nat :=
  cs.foldlM
    (fun acc c => do
      let d ← hexDigitVal? c
      let v := acc * 16 + d
      if v < 2 ^ 32 then pure v else none)
    0

/-- `u32::from_str_radix(s, 16)`.  The Rust parser accepts an optional
leading plus sign, requires at least one digit after it, and rejects
everything else that is not a hex digit. -/
def u32FromStrRadix16 (cs : List Char) : Option Nat :=
  match cs with
  | [] => none
  | c :: rest =>
      if c = '+' then (if rest.isEmpty then none else parseHexDigits rest)
      else parseHexDigits (c :: rest)

/-! ## `validation.rs` -/

/-- `u8::leading_zeros`: the number of high zero bits of a byte. -/
def u8LeadingZeros (b : Nat) : Nat :=
  if 128 ≤ b then 0 else if 64 ≤ b then 1 else if 32 ≤ b then 2
  else if 16 ≤ b then 3 else if 8 ≤ b then 4 else if 4 ≤ b then 5
  else if 2 ≤ b then 6 else if 1 ≤ b then 7 else 8

/-- `difficulty_to_zero_bits`, inner loop over the decoded bytes: each zero
byte contributes 8 bits, the first non-zero byte contributes its
`leading_zeros()` and stops the scan. -/
def dzbBytes : List Nat → Nat
  | [] => 0
  | b :: rest => if b = 0 then 8 + dzbBytes rest else u8LeadingZeros b

/-- `difficulty_to_zero_bits(difficulty_hex)` from `validation.rs`. -/
def difficulty_to_zero_bits (difficulty_hex : String) : Option Nat :=
  (hexDecode difficulty_hex).map dzbBytes

/-- `hash_structure_good(hash_bytes, zero_bits)` from `validation.rs`:
`zero_bits / 8` full zero bytes, then the high `zero_bits % 8` bits of the
next byte, with the same out-of-range behaviour as the Rust code. -/
def hash_structure_good (hash : List Nat) (zero_bits : Nat) : Bool :=
  let full_bytes := zero_bits / 8
  let remaining_bits := zero_bits % 8
  if hash.length < full_bytes then false
  else if (hash.take full_bytes).any (fun b => b != 0) then false
  else if remaining_bits = 0 then true
  else if full_bytes < hash.length then
    (hash.getD full_bytes 0) &&& ((255 <<< (8 - remaining_bits)) % 256) == 0
  else false

/-- `matches_difficulty(hash_hex, difficulty_hex)` from `validation.rs`. -/
def matches_difficulty (hash_hex difficulty_hex : String) : Except String Bool :=
  if hash_hex.length < 8 then .error ("Invalid hash length")
  else if difficulty_hex.length ≠ 8 then .error ("Invalid difficulty length")
  else match hexDecode hash_hex with
    | none => .error ("Failed to decode hash hex")
    | some hash_bytes =>
      match u32FromStrRadix16 (hash_hex.data.take 8) with
      | none => .error ("Failed to parse hash prefix")
      | some hash_prefix_be =>
        match u32FromStrRadix16 difficulty_hex.data with
        | none => .error ("Failed to parse difficulty mask")
        | some mask =>
          let shadow_harvester_pass := (hash_prefix_be ||| mask) == mask
          if !shadow_harvester_pass then .ok false
          else match difficulty_to_zero_bits difficulty_hex with
            | none => .error ("Failed to decode difficulty hex")
            | some required_zero_bits =>
              .ok (hash_structure_good hash_bytes required_zero_bits
                    && shadow_harvester_pass)

/-- `estimate_hashes_needed(difficulty_hex)` from `validation.rs`. -/
def estimate_hashes_needed (difficulty_hex : String) : Except String Nat :=
  match difficulty_to_zero_bits difficulty_hex with
  | none => .error ("Failed to decode difficulty hex")
  | some zero_bits =>
      if 64 ≤ zero_bits then .ok (2 ^ 64 - 1)
      else .ok (2 ^ zero_bits)

/-! ## Specification-side bit views

The specification speaks about "the first Z bits of the decoded hash
bytes" and "the number of leading zero bits of the 4 bytes of mask".
These are the bit-level definitions used to state those properties,
independent of the byte arithmetic of `validation.rs`. -/

/-- The eight bits of a byte, most significant first. -/
def byteBits (b : Nat) : List Bool :=
  (List.range 8).map (fun j => b.testBit (7 - j))

/-- All bits of a byte string, most significant bit of the first byte first. -/
def bytesToBits (bs : List Nat) : List Bool :=
  bs.flatMap byteBits

/-- `firstBitsZero bs z`: the first `z` bits of the byte string `bs`
are all zero. -/
def firstBitsZero (bs : List Nat) (z : Nat) : Bool :=
  ((bytesToBits bs).take z).all (fun bit => !bit)

/-- The number of leading zero bits of a byte string. -/
def leadingZeroBits (bs : List Nat) : Nat :=
  ((bytesToBits bs).takeWhile (fun bit => !bit)).length

/-- The big-endian value of a byte string (the `u32` a 4-byte string
parses to). -/
def beVal (bs : List Nat) : Nat :=
  bs.foldl (fun acc b => acc * 256 + b) 0

/-- The value of a big-endian hex digit string. -/
def hexVal (cs : List Char) : Nat :=
  cs.foldl (fun acc c => acc * 16 + (hexDigitVal? c).getD 0) 0

/-! ## `preimage.rs` and the preimage builder of `hashengine.rs` -/

/-- `ChallengeData` from `preimage.rs`. -/
structure ChallengeData where
  challenge_id : String
  difficulty : String
  no_pre_mine : String
  latest_submission : String
  no_pre_mine_hour : String

/-- `build_preimage(nonce_hex, address, challenge)` from `preimage.rs`:
plain concatenation of the seven fields. -/
def build_preimage_str (nonce_hex address : String) (c : ChallengeData) : String :=
  nonce_hex ++ address ++ c.challenge_id ++ c.difficulty ++ c.no_pre_mine
    ++ c.latest_submission ++ c.no_pre_mine_hour

/-- The lowercase hex digit character for a value below 16. -/
def hexDigitChar (n : Nat) : Char :=
  if n < 10 then Char.ofNat (48 + n) else Char.ofNat (87 + n)

/-- The hex digits of `n`, most significant first, without padding, with
structural fuel (any fuel above `n` gives the same digits). -/
def hexDigitsCore : Nat → Nat → List Char
  | _, 0 => []
  | n, fuel + 1 =>
      if n < 16 then [hexDigitChar n]
      else hexDigitsCore (n / 16) fuel ++ [hexDigitChar (n % 16)]

/-- The hex digits of `n`, most significant first, without padding
(`0` renders as the single digit `0`). -/
def hexDigits (n : Nat) : List Char := hexDigitsCore n (n + 1)

/-- Rust `format!` with the `016x` spec: lowercase hex, left-padded with
zeros to at least 16 characters. -/
def formatHex016 (n : Nat) : String :=
  ⟨List.replicate (16 - (hexDigits n).length) '0' ++ hexDigits n⟩

/-- `build_preimage(nonce, ...)` from `hashengine.rs`: renders the nonce
with `format!` `016x` and concatenates the seven fields. -/
def build_preimage (nonce : Nat) (address challenge_id difficulty no_pre_mine
    latest_submission no_pre_mine_hour : String) : String :=
  formatHex016 nonce ++ address ++ challenge_id ++ difficulty ++ no_pre_mine
    ++ latest_submission ++ no_pre_mine_hour

/-! ## The nonce schedule of `start_mining_handler` (`bin/server.rs`) -/

/-- The initial `nonce_counter` of `start_mining_handler`:
`worker_id * 1_000_000_000` as a wrapping `u64` product. -/
def startMiningFirstNonce (worker_id : Nat) : Nat :=
  (worker_id * 1000000000) % 2 ^ 64

/-- The value of `nonce_counter` after `batch` full batches of
`BATCH_SIZE = 10000` nonces (each batch adds `10000` with `u64` wrapping). -/
def nonceAfterBatches (worker_id batch : Nat) : Nat :=
  (worker_id * 1000000000 + batch * 10000) % 2 ^ 64

/-- The nonce probed at index `idx` of batch `batch` by worker
`worker_id`: `nonce_counter + idx` with `u64` wrapping. -/
def startMiningNonce (worker_id batch idx : Nat) : Nat :=
  (nonceAfterBatches worker_id batch + idx) % 2 ^ 64

/-! ## The VM of `hashengine.rs`

The two external cryptographic primitives are parameters:
`DigestSpec` models a `blake2b_simd` 64-byte-output state
(`Params::new().hash_length(64).to_state()`, `update`, `finalize` on a
clone), and `HPrimeSpec` models `argon2::hprime`, which fills a buffer of
the requested size deterministically from a seed.  Every theorem about the
VM holds for any implementation of these interfaces. -/

/-- A Blake2b-64 digest implementation: an initial state, `update` with a
byte string, and `finalize` producing the 64 output bytes (called on a
clone in the Rust code, so it takes the state by value). -/
structure DigestSpec where
  State : Type
  init64 : State
  update : State → List Nat → State
  finalize : State → List Nat

/-- The Argon2 `hprime` expansion: `run out_len seed` fills a buffer of
exactly `out_len` bytes from `seed`. -/
structure HPrimeSpec where
  run : Nat → List Nat → List Nat
  length_run : ∀ (n : Nat) (seed : List Nat), (run n seed).length = n

/-- A ROM: its byte table and its 64-byte digest.  (`rom.rs` itself is not
among the extracted sources; only this shape and `at` are needed.) -/
structure Rom where
  bytes : List Nat
  digest : List Nat

/-- Modelled from the spec: `rom.rs` is not under `src/`, and §4.2 of the
specification defines `rom.at(i)` as the 64-byte window starting at
`(i * 64) mod rom_size`. -/
def romAt (rom : Rom) (i : Nat) : List Nat :=
  let start := (i * 64) % rom.bytes.length
  (rom.bytes.drop start).take 64

/-- Little-endian value of a byte string (`u64::from_le_bytes`). -/
def leVal (bs : List Nat) : Nat :=
  bs.foldr (fun b acc => b + 256 * acc) 0

/-- The 8 little-endian bytes of a `u64` (`u64::to_le_bytes`). -/
def leBytes8 (n : Nat) : List Nat :=
  (List.range 8).map (fun i => (n >>> (8 * i)) % 256)

/-- The 4 little-endian bytes of a `u32` (`u32::to_le_bytes`). -/
def leBytes4 (n : Nat) : List Nat :=
  (List.range 4).map (fun i => (n >>> (8 * i)) % 256)

/-- The `Op3` operators of `hashengine.rs`. -/
inductive Op3 where
  | Add | Mul | MulH | Xor | Div | Mod | And
  | Hash (v : Nat)
deriving DecidableEq

/-- The `Op2` operators of `hashengine.rs`. -/
inductive Op2 where
  | ISqrt | Neg | BitRev | RotL | RotR
deriving DecidableEq

/-- The decoded operator (`enum Instr`). -/
inductive Instr where
  | Op3 (op : Op3)
  | Op2 (op : Op2)
deriving DecidableEq

/-- `impl From<u8> for Instr`: the fixed disjoint opcode ranges. -/
def instrFromByte (value : Nat) : Instr :=
  if value < 40 then .Op3 .Add
  else if value < 80 then .Op3 .Mul
  else if value < 96 then .Op3 .MulH
  else if value < 112 then .Op3 .Div
  else if value < 128 then .Op3 .Mod
  else if value < 138 then .Op2 .ISqrt
  else if value < 148 then .Op2 .BitRev
  else if value < 188 then .Op3 .Xor
  else if value < 204 then .Op2 .RotL
  else if value < 220 then .Op2 .RotR
  else if value < 240 then .Op2 .Neg
  else if value < 248 then .Op3 .And
  else .Op3 (.Hash (value - 248))

/-- The operand kinds (`enum Operand`). -/
inductive Operand where
  | Reg | Memory | Literal | Special1 | Special2
deriving DecidableEq

/-- `impl From<u8> for Operand` on a nibble. -/
def operandFromNibble (value : Nat) : Operand :=
  if value < 5 then .Reg
  else if value < 9 then .Memory
  else if value < 13 then .Literal
  else if value < 14 then .Special1
  else .Special2

/-- A decoded instruction. -/
structure Instruction where
  opcode : Instr
  op1 : Operand
  op2 : Operand
  r1 : Nat
  r2 : Nat
  r3 : Nat
  lit1 : Nat
  lit2 : Nat

/-- Byte `i` of an instruction chunk, as the `u8` it is in Rust. -/
def instrByte (instr : List Nat) (i : Nat) : Nat :=
  instr.getD i 0 % 256

/-- `decode_instruction`: opcode byte, two operand nibbles, three 5-bit
register fields packed big-endian into bytes 2-3 (each extracted through a
`u8` cast), and two little-endian `u64` literals. -/
def decode_instruction (instr : List Nat) : Instruction :=
  let opcode := instrFromByte (instrByte instr 0)
  let op1 := operandFromNibble (instrByte instr 1 >>> 4)
  let op2 := operandFromNibble (instrByte instr 1 &&& 15)
  let rs := (instrByte instr 2 <<< 8) ||| instrByte instr 3
  let r1 := (rs >>> 10) % 256 &&& 31
  let r2 := (rs >>> 5) % 256 &&& 31
  let r3 := rs % 256 &&& 31
  let lit1 := leVal (((instr.drop 4).take 8).map (fun b => b % 256))
  let lit2 := leVal (((instr.drop 12).take 8).map (fun b => b % 256))
  ⟨opcode, op1, op2, r1, r2, r3, lit1, lit2⟩

/-- The VM state (`struct VM`), parametric in the digest state type. -/
structure VMState (σ : Type) where
  program : List Nat
  regs : List Nat
  ip : Nat
  prog_digest : σ
  mem_digest : σ
  prog_seed : List Nat
  memory_counter : Nat
  loop_counter : Nat

/-- `Program::new(nb_instrs)`: a zeroed buffer of `nb_instrs * 20` bytes. -/
def programNew (nb_instrs : Nat) : List Nat :=
  List.replicate (nb_instrs * 20) 0

/-- `Program::at(i)`: the 20-byte slice at `(i * 20) mod len`, where the
byte offset is a wrapping `usize` product and the slice panics (`none`)
when out of bounds or when the buffer is empty. -/
def programAt (prog : List Nat) (i : Nat) : Option (List Nat) :=
  if prog.length = 0 then none
  else
    let start := ((i * 20) % 2 ^ 64) % prog.length
    if start + 20 ≤ prog.length then some ((prog.drop start).take 20)
    else none

/-- `Program::shuffle(seed)`: rewrite the whole buffer with `hprime`. -/
def programShuffle (HP : HPrimeSpec) (program : List Nat) (seed : List Nat) :
    List Nat :=
  HP.run program.length seed

/-- The 20-byte chunk at the current instruction pointer (the fetch that
C10 shows is always in bounds on a well-formed program). -/
def fetchChunk {σ : Type} (vm : VMState σ) : List Nat :=
  (programAt vm.program vm.ip).getD (List.replicate 20 0)

/-- `Special1`: the little-endian `u64` of the first 8 bytes of finalizing
a clone of the given digest state. -/
def special1Val (D : DigestSpec) (st : D.State) : Nat :=
  leVal ((D.finalize st).take 8)

/-- Evaluate one operand, threading the VM state (a `Memory` operand
updates `mem_digest` and `memory_counter`). -/
def evalOperand (D : DigestSpec) (rom : Rom) (vm : VMState D.State)
    (op : Operand) (r : Nat) (lit : Nat) : Nat × VMState D.State :=
  match op with
  | .Reg => (vm.regs.getD r 0, vm)
  | .Memory =>
      let mem := romAt rom (lit % 2 ^ 32)
      let md := D.update vm.mem_digest mem
      let mc := (vm.memory_counter + 1) % 2 ^ 32
      let idx := (mc % 8) * 8
      (leVal ((mem.drop idx).take 8),
        { vm with mem_digest := md, memory_counter := mc })
  | .Literal => (lit, vm)
  | .Special1 => (special1Val D vm.prog_digest, vm)
  | .Special2 => (leVal ((D.finalize vm.mem_digest).take 8), vm)

/-- `u64::rotate_left`. -/
def rotl64 (x k : Nat) : Nat :=
  ((x % 2 ^ 64) <<< (k % 64)) % 2 ^ 64 ||| (x % 2 ^ 64) >>> (64 - k % 64)

/-- `u64::rotate_right`. -/
def rotr64 (x k : Nat) : Nat :=
  (x % 2 ^ 64) >>> (k % 64) ||| ((x % 2 ^ 64) <<< (64 - k % 64)) % 2 ^ 64

/-- `u64::reverse_bits`. -/
def bitRev64 (x : Nat) : Nat :=
  (List.range 64).foldl
    (fun acc i => acc ||| (if (x % 2 ^ 64).testBit i then 1 <<< (63 - i) else 0))
    0

/-- The `Hash(v)` operator: Blake2b of the two little-endian sources,
then the `v`-th 8-byte chunk of the output as a little-endian `u64`. -/
def hashOpVal (D : DigestSpec) (src1 src2 v : Nat) : Nat :=
  let out := D.finalize (D.update (D.update D.init64 (leBytes8 src1)) (leBytes8 src2))
  leVal ((out.drop (8 * v)).take 8)

/-- The result of a 3-ary operator (wrapping `u64` arithmetic; `Div` and
`Mod` both return the quotient and substitute `Special1` for divisor 0). -/
def op3Result (D : DigestSpec) (operator : Op3) (st : VMState D.State)
    (src1 src2 : Nat) : Nat :=
  match operator with
  | .Add => (src1 + src2) % 2 ^ 64
  | .Mul => (src1 * src2) % 2 ^ 64
  | .MulH => (src1 * src2) >>> 64
  | .Xor => src1 ^^^ src2
  | .Div => if src2 = 0 then special1Val D st.prog_digest else src1 / src2
  | .Mod => if src2 = 0 then special1Val D st.prog_digest else src1 / src2
  | .And => src1 &&& src2
  | .Hash v => hashOpVal D src1 src2 v

/-- The result of a 2-ary operator.  The rotation amount is the 5-bit `r1`
register-index field, not the operand. -/
def op2Result (operator : Op2) (src1 r1 : Nat) : Nat :=
  match operator with
  | .Neg => src1 ^^^ (2 ^ 64 - 1)
  | .RotL => rotl64 src1 r1
  | .RotR => rotr64 src1 r1
  | .ISqrt => Nat.sqrt src1
  | .BitRev => bitRev64 src1

/-- `execute_one_instruction`: fetch, decode, evaluate the sources in
order, compute, write the destination register `r3`, then update
`prog_digest` with the 20 instruction bytes. -/
def execute_one_instruction (D : DigestSpec) (rom : Rom)
    (vm : VMState D.State) : VMState D.State :=
  let prog_chunk := fetchChunk vm
  let ins := decode_instruction prog_chunk
  match ins.opcode with
  | .Op3 operator =>
      let ev1 := evalOperand D rom vm ins.op1 ins.r1 ins.lit1
      let ev2 := evalOperand D rom ev1.2 ins.op2 ins.r2 ins.lit2
      let result := op3Result D operator ev2.2 ev1.1 ev2.1
      let vm3 := { ev2.2 with regs := ev2.2.regs.set ins.r3 result }
      { vm3 with prog_digest := D.update vm3.prog_digest prog_chunk }
  | .Op2 operator =>
      let ev1 := evalOperand D rom vm ins.op1 ins.r1 ins.lit1
      let result := op2Result operator ev1.1 ins.r1
      let vm2 := { ev1.2 with regs := ev1.2.regs.set ins.r3 result }
      { vm2 with prog_digest := D.update vm2.prog_digest prog_chunk }

/-- `VM::step`: execute one instruction, then `ip = ip.wrapping_add(1)`. -/
def vmStep (D : DigestSpec) (rom : Rom) (vm : VMState D.State) :
    VMState D.State :=
  let vm' := execute_one_instruction D rom vm
  { vm' with ip := (vm'.ip + 1) % 2 ^ 32 }

/-- `VM::sum_regs`: wrapping sum of the registers. -/
def sumRegs {σ : Type} (vm : VMState σ) : Nat :=
  vm.regs.foldl (fun acc r => (acc + r) % 2 ^ 64) 0

/-- `VM::post_instructions`: snapshot both digests over the register sum,
expand 32 rounds of 256 bytes of mixing material, XOR each round's 32
little-endian `u64`s into the registers, replace `prog_seed`, bump
`loop_counter`.  (`hprime` returns exactly `32 * 8 * 32` bytes, hence
`length / 256` rounds of 32 8-byte chunks.) -/
def post_instructions (D : DigestSpec) (HP : HPrimeSpec)
    (vm : VMState D.State) : VMState D.State :=
  let sum_regs := sumRegs vm
  let prog_value := D.finalize (D.update vm.prog_digest (leBytes8 sum_regs))
  let mem_value := D.finalize (D.update vm.mem_digest (leBytes8 sum_regs))
  let mixing_value := D.finalize (D.update (D.update (D.update D.init64
    prog_value) mem_value) (leBytes4 vm.loop_counter))
  let mixing_out := HP.run (32 * 8 * 32) mixing_value
  let regs := (List.range (mixing_out.length / 256)).foldl
    (fun rs round =>
      List.zipWith
        (fun r j => r ^^^ leVal ((mixing_out.drop (256 * round + 8 * j)).take 8))
        rs (List.range 32))
    vm.regs
  { vm with
      regs := regs
      prog_seed := prog_value
      loop_counter := (vm.loop_counter + 1) % 2 ^ 32 }

/-- `VM::execute`: shuffle the program, run `instr` steps, post-mix. -/
def vmExecute (D : DigestSpec) (HP : HPrimeSpec) (rom : Rom)
    (vm : VMState D.State) (instr : Nat) : VMState D.State :=
  let vm0 := { vm with program := programShuffle HP vm.program vm.prog_seed }
  let vm1 := (List.range instr).foldl (fun v _ => vmStep D rom v) vm0
  post_instructions D HP vm1

/-- `VM::new`: expand `rom_digest || salt` into 256 register bytes, two
64-byte digest seeds and the 64-byte program seed; zeroed program. -/
def vmNew (D : DigestSpec) (HP : HPrimeSpec) (rom_digest : List Nat)
    (nb_instrs : Nat) (salt : List Nat) : VMState D.State :=
  let init_buffer := HP.run (32 * 8 + 3 * 64) (rom_digest ++ salt)
  let regs := (List.range 32).map (fun i => leVal ((init_buffer.drop (8 * i)).take 8))
  let prog_digest := D.update D.init64 ((init_buffer.drop 256).take 64)
  let mem_digest := D.update D.init64 ((init_buffer.drop 320).take 64)
  let prog_seed := (init_buffer.drop 384).take 64
  { program := programNew nb_instrs
    regs := regs
    ip := 0
    prog_digest := prog_digest
    mem_digest := mem_digest
    prog_seed := prog_seed
    memory_counter := 0
    loop_counter := 0 }

/-- `VM::finalize`: Blake2b of both finalized digests, the memory counter
and the 32 registers, all little-endian. -/
def vmFinalize (D : DigestSpec) (vm : VMState D.State) : List Nat :=
  let prog_digest := D.finalize vm.prog_digest
  let mem_digest := D.finalize vm.mem_digest
  let st := D.update (D.update (D.update D.init64 prog_digest) mem_digest)
    (leBytes4 vm.memory_counter)
  D.finalize (vm.regs.foldl (fun acc r => D.update acc (leBytes8 r)) st)

/-- The `assert!` preconditions of `hash`. -/
def hash_asserts (nb_loops nb_instrs : Nat) : Bool :=
  decide (2 ≤ nb_loops) && decide (256 ≤ nb_instrs)

/-- `hash(salt, rom, nb_loops, nb_instrs)`: build a VM, run `nb_loops`
executions of `nb_instrs` instructions, finalize. -/
def hash (D : DigestSpec) (HP : HPrimeSpec) (salt : List Nat) (rom : Rom)
    (nb_loops nb_instrs : Nat) : List Nat :=
  let vm := vmNew D HP rom.digest nb_instrs salt
  vmFinalize D
    ((List.range nb_loops).foldl (fun v _ => vmExecute D HP rom v nb_instrs) vm)

/-- `hex::encode`: two lowercase hex digits per byte. -/
def hexEncode (bs : List Nat) : String :=
  ⟨bs.flatMap (fun b => [hexDigitChar (b % 256 / 16), hexDigitChar (b % 256 % 16)])⟩

/-- `str::as_bytes`: the UTF-8 bytes of a string. -/
def strBytes (s : String) : List Nat :=
  s.toUTF8.toList.map (fun b => b.toNat)

/-- The single-hash path of `hash_handler` (`bin/server.rs`): hash the
preimage bytes with the current ROM at `nb_loops = 8`, `nb_instrs = 256`
and hex-encode the 64-byte digest. -/
def hash_handler (D : DigestSpec) (HP : HPrimeSpec) (rom : Rom)
    (preimage : String) : String :=
  hexEncode (hash D HP (strBytes preimage) rom 8 256)

/-- `hash_batch_handler` (`bin/server.rs`): reject an empty batch, else map
the same per-preimage computation over the batch (rayon's `par_iter().map()
.collect()` keeps input order). -/
def hash_batch_handler (D : DigestSpec) (HP : HPrimeSpec) (rom : Rom)
    (preimages : List String) : Except String (List String) :=
  if preimages.isEmpty then .error ("preimages array is required")
  else .ok (preimages.map
    (fun preimage => hexEncode (hash D HP (strBytes preimage) rom 8 256)))

/-! ### Concrete instances for evaluating the parametric theorems -/

/-- A trivial digest implementation (state is the concatenation of all
input, finalize pads and truncates to 64 bytes). -/
def unitDigest : DigestSpec where
  State := List Nat
  init64 := []
  update st bs := st ++ bs
  finalize st := (st ++ List.replicate 64 0).take 64

/-- A trivial expansion implementation (all zero bytes). -/
def zeroHPrime : HPrimeSpec where
  run n _ := List.replicate n 0
  length_run n _ := List.length_replicate n 0

/-- A minimal ROM. -/
def smallRom : Rom where
  bytes := List.replicate 64 0
  digest := List.replicate 64 0

/-- A VM about to execute `Div` with literal sources `10` and `0`
(opcode byte 96; operand-type byte `0x99` = literal/literal). -/
def vmDivTest : VMState (List Nat) where
  program := [96, 153, 0, 0, 10, 0, 0, 0, 0, 0, 0, 0, 0, 0, 0, 0, 0, 0, 0, 0]
  regs := List.replicate 32 0
  ip := 0
  prog_digest := []
  mem_digest := []
  prog_seed := []
  memory_counter := 0
  loop_counter := 0

/-- A VM about to execute `RotL` with literal source `5` and `r1 = 3`
(opcode byte 188; operand-type byte `0x90`; `rs = 3 <<< 10`). -/
def vmRotTest : VMState (List Nat) where
  program := [188, 144, 12, 0, 5, 0, 0, 0, 0, 0, 0, 0, 0, 0, 0, 0, 0, 0, 0, 0]
  regs := List.replicate 32 0
  ip := 0
  prog_digest := []
  mem_digest := []
  prog_seed := []
  memory_counter := 0
  loop_counter := 0

/-! ## Lemmas about hex digits and decoding -/

theorem hexDigitVal?_lt {c : Char} {d : Nat} (h : hexDigitVal? c = some d) : d < 16 := by
  unfold hexDigitVal? at h
  split at h <;> [skip; split at h] <;> [skip; skip; split at h]
  all_goals simp only [Option.some.injEq, reduceCtorEq] at h
  all_goals omega

theorem hexDigitVal?_ne_plus {c : Char} {d : Nat} (h : hexDigitVal? c = some d) :
    c ≠ '+' := by
  rintro rfl
  simp [hexDigitVal?] at h

theorem decodePairs_mem_lt : ∀ {cs : List Char} {bs : List Nat},
    decodePairs cs = some bs → ∀ b ∈ bs, b < 256
  | [], _, h => by
      simp only [decodePairs, Option.some.injEq] at h
      subst h; simp
  | [c], _, h => by simp [decodePairs] at h
  | c1 :: c2 :: rest, bs, h => by
      simp only [decodePairs, Option.bind_eq_bind, Option.bind_eq_some, Option.pure_def,
        Option.some.injEq] at h
      obtain ⟨hi, h1, lo, h2, tl, h3, h4⟩ := h
      subst h4
      intro b hb
      rcases List.mem_cons.mp hb with rfl | hb
      · have := hexDigitVal?_lt h1
        have := hexDigitVal?_lt h2
        omega
      · exact decodePairs_mem_lt h3 b hb

theorem decodePairs_length : ∀ {cs : List Char} {bs : List Nat},
    decodePairs cs = some bs → 2 * bs.length = cs.length
  | [], _, h => by
      simp only [decodePairs, Option.some.injEq] at h
      subst h; rfl
  | [c], _, h => by simp [decodePairs] at h
  | _ :: _ :: rest, bs, h => by
      simp only [decodePairs, Option.bind_eq_bind, Option.bind_eq_some, Option.pure_def,
        Option.some.injEq] at h
      obtain ⟨hi, _, lo, _, tl, h3, h4⟩ := h
      subst h4
      have := decodePairs_length h3
      simp only [List.length_cons]
      omega

theorem decodePairs_chars : ∀ {cs : List Char} {bs : List Nat},
    decodePairs cs = some bs → ∀ c ∈ cs, (hexDigitVal? c).isSome
  | [], _, _ => by simp
  | [c], _, h => by simp [decodePairs] at h
  | c1 :: c2 :: rest, bs, h => by
      simp only [decodePairs, Option.bind_eq_bind, Option.bind_eq_some, Option.pure_def,
        Option.some.injEq] at h
      obtain ⟨hi, h1, lo, h2, tl, h3, _⟩ := h
      intro c hc
      rcases List.mem_cons.mp hc with rfl | hc
      · simp [h1]
      rcases List.mem_cons.mp hc with rfl | hc
      · simp [h2]
      · exact decodePairs_chars h3 c hc

theorem decodePairs_take : ∀ (k : Nat) {cs : List Char} {bs : List Nat},
    decodePairs cs = some bs → decodePairs (cs.take (2 * k)) = some (bs.take k)
  | 0, cs, bs, _ => by simp [decodePairs]
  | k + 1, [], bs, h => by
      simp only [decodePairs, Option.some.injEq] at h
      subst h; simp [decodePairs]
  | k + 1, [c], bs, h => by simp [decodePairs] at h
  | k + 1, c1 :: c2 :: rest, bs, h => by
      simp only [decodePairs, Option.bind_eq_bind, Option.bind_eq_some, Option.pure_def,
        Option.some.injEq] at h
      obtain ⟨hi, h1, lo, h2, tl, h3, h4⟩ := h
      subst h4
      have hrec := decodePairs_take k h3
      have h2k : 2 * (k + 1) = (2 * k) + 1 + 1 := by omega
      rw [h2k]
      simp only [List.take_succ_cons, decodePairs, Option.bind_eq_bind, h1, h2, hrec,
        Option.some_bind]
      rfl

/-! ## The value computed by `u32::from_str_radix` -/

/-- A fold of checked multiply-adds never trips its overflow guard while the
accumulator stays below `16 ^ (8 - length)`, and computes the plain fold. -/
theorem foldlM_hexDigits : ∀ (cs : List Char) (acc : Nat),
    (∀ c ∈ cs, (hexDigitVal? c).isSome) → cs.length ≤ 8 →
    acc < 16 ^ (8 - cs.length) →
    (cs.foldlM
      (fun acc c => do
        let d ← hexDigitVal? c
        let v := acc * 16 + d
        if v < 2 ^ 32 then pure v else none)
      acc) =
      some (cs.foldl (fun a c => a * 16 + (hexDigitVal? c).getD 0) acc)
  | [], acc, _, _, _ => rfl
  | c :: rest, acc, hall, hlen, hacc => by
      obtain ⟨d, hd⟩ := Option.isSome_iff_exists.mp (hall c (List.mem_cons_self c rest))
      have hd16 : d < 16 := hexDigitVal?_lt hd
      simp only [List.length_cons] at hlen hacc
      have hlen' : rest.length ≤ 8 := by omega
      have hstep : acc * 16 + d < 16 ^ (8 - rest.length) := by
        have h2 : (acc + 1) * 16 ≤ 16 ^ (8 - (rest.length + 1)) * 16 :=
          Nat.mul_le_mul_right 16 hacc
        have h3 : 16 ^ (8 - (rest.length + 1)) * 16 ≤ 16 ^ (8 - rest.length) := by
          rw [← pow_succ]
          exact Nat.pow_le_pow_right (by omega) (by omega)
        omega
      have hguard : acc * 16 + d < 2 ^ 32 := by
        have h16 : (16 : Nat) ^ (8 - rest.length) ≤ 16 ^ 8 :=
          Nat.pow_le_pow_right (by omega) (by omega)
        calc acc * 16 + d < 16 ^ (8 - rest.length) := hstep
          _ ≤ 16 ^ 8 := h16
          _ ≤ 2 ^ 32 := by norm_num
      simp only [List.foldlM_cons, hd, Option.bind_eq_bind, Option.some_bind,
        if_pos hguard]
      have := foldlM_hexDigits rest (acc * 16 + d)
        (fun c hc => hall c (List.mem_cons_of_mem _ hc)) hlen' hstep
      simpa [hd, List.foldl_cons] using this

/-- On a string of at most 8 hex digits, `from_str_radix`'s fold succeeds
and computes the big-endian hex value. -/
theorem parseHexDigits_eq {cs : List Char}
    (hall : ∀ c ∈ cs, (hexDigitVal? c).isSome) (hlen : cs.length ≤ 8) :
    parseHexDigits cs = some (hexVal cs) :=
  foldlM_hexDigits cs 0 hall hlen (Nat.pos_pow_of_pos _ (by omega))

/-- A big-endian byte fold from an arbitrary accumulator splits off the
accumulator's contribution. -/
theorem beVal_from : ∀ (bs : List Nat) (acc : Nat),
    List.foldl (fun a b => a * 256 + b) acc bs = acc * 256 ^ bs.length + beVal bs
  | [], acc => by simp [beVal]
  | b :: bs, acc => by
      have h2 : beVal (b :: bs) = (0 * 256 + b) * 256 ^ bs.length + beVal bs := by
        show List.foldl (fun a b => a * 256 + b) (0 * 256 + b) bs = _
        exact beVal_from bs (0 * 256 + b)
      rw [List.foldl_cons, beVal_from bs (acc * 256 + b), h2]
      simp only [List.length_cons]
      ring

theorem beVal_cons (b : Nat) (bs : List Nat) :
    beVal (b :: bs) = b * 256 ^ bs.length + beVal bs := by
  show List.foldl (fun a b => a * 256 + b) (0 * 256 + b) bs = _
  rw [show (0 * 256 + b) = b from by omega]
  exact beVal_from bs b

/-- A hex digit fold from an arbitrary accumulator splits off the
accumulator's contribution. -/
theorem hexVal_from : ∀ (cs : List Char) (acc : Nat),
    List.foldl (fun a c => a * 16 + (hexDigitVal? c).getD 0) acc cs =
      acc * 16 ^ cs.length + hexVal cs
  | [], acc => by simp [hexVal]
  | c :: cs, acc => by
      have h2 : hexVal (c :: cs) =
          (0 * 16 + (hexDigitVal? c).getD 0) * 16 ^ cs.length + hexVal cs := by
        show List.foldl (fun a c => a * 16 + (hexDigitVal? c).getD 0)
          (0 * 16 + (hexDigitVal? c).getD 0) cs = _
        exact hexVal_from cs (0 * 16 + (hexDigitVal? c).getD 0)
      rw [List.foldl_cons, hexVal_from cs (acc * 16 + (hexDigitVal? c).getD 0), h2]
      simp only [List.length_cons]
      ring

theorem beVal_lt : ∀ {bs : List Nat}, (∀ b ∈ bs, b < 256) → beVal bs < 256 ^ bs.length
  | [], _ => by simp [beVal]
  | b :: bs, h => by
      rw [beVal_cons]
      have hb : b < 256 := h b (List.mem_cons_self b bs)
      have ht : beVal bs < 256 ^ bs.length :=
        beVal_lt (fun x hx => h x (List.mem_cons_of_mem _ hx))
      have hs : b * 256 ^ bs.length + beVal bs < (b + 1) * 256 ^ bs.length := by
        rw [Nat.succ_mul]
        omega
      calc b * 256 ^ bs.length + beVal bs < (b + 1) * 256 ^ bs.length := hs
        _ ≤ 256 * 256 ^ bs.length := Nat.mul_le_mul_right _ (by omega)
        _ = 256 ^ (b :: bs).length := by rw [List.length_cons, pow_succ, Nat.mul_comm]

/-- The hex value of a digit string is the big-endian value of its decoded
byte string. -/
theorem hexVal_eq_beVal : ∀ {cs : List Char} {bs : List Nat},
    decodePairs cs = some bs → hexVal cs = beVal bs
  | [], bs, h => by
      simp only [decodePairs, Option.some.injEq] at h
      subst h; rfl
  | [c], bs, h => by simp [decodePairs] at h
  | c1 :: c2 :: rest, bs, h => by
      simp only [decodePairs, Option.bind_eq_bind, Option.bind_eq_some, Option.pure_def,
        Option.some.injEq] at h
      obtain ⟨hi, h1, lo, h2, tl, h3, h4⟩ := h
      subst h4
      have hlen : 2 * tl.length = rest.length := decodePairs_length h3
      have ih : hexVal rest = beVal tl := hexVal_eq_beVal h3
      have h16 : (16 : Nat) ^ rest.length = 256 ^ tl.length := by
        rw [← hlen, Nat.pow_mul]
      show List.foldl (fun a c => a * 16 + (hexDigitVal? c).getD 0)
        ((0 * 16 + (hexDigitVal? c1).getD 0) * 16 + (hexDigitVal? c2).getD 0) rest = _
      rw [hexVal_from rest ((0 * 16 + (hexDigitVal? c1).getD 0) * 16 + (hexDigitVal? c2).getD 0)]
      rw [beVal_cons, ← ih, h16, h1, h2]
      simp only [Option.getD_some, Nat.zero_mul, Nat.zero_add]

/-- On a decoded (hence all-hex, plus-free) string of at most 8 characters,
`u32::from_str_radix` succeeds with the big-endian byte value. -/
theorem u32Parse_of_decode {cs : List Char} {bs : List Nat}
    (hdec : decodePairs cs = some bs) (hne : cs ≠ []) (hlen : cs.length ≤ 8) :
    u32FromStrRadix16 cs = some (beVal bs) := by
  match cs, hne with
  | c :: rest, _ =>
    have hall := decodePairs_chars hdec
    obtain ⟨d, hd⟩ := Option.isSome_iff_exists.mp (hall c (List.mem_cons_self c rest))
    simp only [u32FromStrRadix16]
    rw [if_neg (hexDigitVal?_ne_plus hd), parseHexDigits_eq hall hlen, hexVal_eq_beVal hdec]

/-! ## List and bit-view lemmas -/

theorem takeWhile_append_of_all {α : Type} (p : α → Bool) :
    ∀ (l1 l2 : List α), l1.all p = true →
    (l1 ++ l2).takeWhile p = l1 ++ l2.takeWhile p
  | [], l2, _ => by simp
  | a :: l1, l2, h => by
      simp only [List.all_cons, Bool.and_eq_true] at h
      simp only [List.cons_append, List.takeWhile_cons, h.1, if_true]
      rw [takeWhile_append_of_all p l1 l2 h.2]

theorem takeWhile_append_of_not_all {α : Type} (p : α → Bool) :
    ∀ (l1 l2 : List α), l1.all p = false →
    (l1 ++ l2).takeWhile p = l1.takeWhile p
  | [], l2, h => by simp at h
  | a :: l1, l2, h => by
      simp only [List.all_cons, Bool.and_eq_false_iff] at h
      simp only [List.cons_append, List.takeWhile_cons]
      rcases h with h | h
      · rw [h]
        simp
      · by_cases hpa : p a = true
        · rw [hpa]
          simp only [if_true]
          rw [takeWhile_append_of_not_all p l1 l2 h]
        · simp only [Bool.not_eq_true] at hpa
          rw [hpa]
          simp

theorem take_length_takeWhile {α : Type} (p : α → Bool) :
    ∀ (l : List α), l.take ((l.takeWhile p).length) = l.takeWhile p
  | [] => by simp
  | a :: l => by
      simp only [List.takeWhile_cons]
      by_cases hpa : p a = true
      · simp only [hpa, if_true, List.length_cons, List.take_succ_cons]
        rw [take_length_takeWhile p l]
      · simp only [Bool.not_eq_true] at hpa
        simp [hpa]

theorem all_of_takeWhile {α : Type} (p : α → Bool) :
    ∀ (l : List α), (l.takeWhile p).all p = true
  | [] => by simp
  | a :: l => by
      simp only [List.takeWhile_cons]
      by_cases hpa : p a = true
      · simp only [hpa, if_true, List.all_cons, hpa, Bool.true_and]
        exact all_of_takeWhile p l
      · simp only [Bool.not_eq_true] at hpa
        simp [hpa]

theorem length_takeWhile_le {α : Type} (p : α → Bool) :
    ∀ (l : List α), (l.takeWhile p).length ≤ l.length
  | [] => by simp
  | a :: l => by
      simp only [List.takeWhile_cons]
      by_cases hpa : p a = true
      · simpa [hpa] using length_takeWhile_le p l
      · simp only [Bool.not_eq_true] at hpa
        simp [hpa]

theorem length_byteBits (b : Nat) : (byteBits b).length = 8 := by
  simp [byteBits]

theorem bytesToBits_nil : bytesToBits [] = [] := rfl

theorem bytesToBits_cons (b : Nat) (bs : List Nat) :
    bytesToBits (b :: bs) = byteBits b ++ bytesToBits bs := by
  simp [bytesToBits]

theorem length_bytesToBits : ∀ (bs : List Nat), (bytesToBits bs).length = 8 * bs.length
  | [] => rfl
  | b :: bs => by
      rw [bytesToBits_cons, List.length_append, length_byteBits, length_bytesToBits bs,
        List.length_cons]
      ring

set_option maxRecDepth 10000 in
/-- A byte is zero exactly when all eight of its bits are zero. -/
theorem byteBits_all_eq : ∀ b : Fin 256,
    ((byteBits b.val).all (fun x => !x)) = (b.val == 0) := by decide

set_option maxRecDepth 10000 in
/-- The first `z` bits of a byte are zero exactly when the byte is below
`2 ^ (8 - z)`. -/
theorem byteBits_take_all_eq : ∀ (b : Fin 256) (z : Fin 9),
    ((byteBits b.val).take z.val).all (fun x => !x) = decide (b.val < 2 ^ (8 - z.val)) := by
  decide

set_option maxRecDepth 10000 in
/-- The run of leading zero bits of a byte has length `u8::leading_zeros`. -/
theorem byteBits_takeWhile_len : ∀ b : Fin 256,
    ((byteBits b.val).takeWhile (fun x => !x)).length = u8LeadingZeros b.val := by decide

set_option maxRecDepth 10000 in
/-- On a single byte and fewer than eight requested bits,
`hash_structure_good` is the bit-prefix test. -/
theorem hsg_single_eq : ∀ (b : Fin 256) (z : Fin 8),
    hash_structure_good [b.val] z.val = ((byteBits b.val).take z.val).all (fun x => !x) := by
  decide

theorem byteBits_all_eq' {b : Nat} (hb : b < 256) :
    ((byteBits b).all (fun x => !x)) = (b == 0) :=
  byteBits_all_eq ⟨b, hb⟩

theorem byteBits_take_all_eq' {b : Nat} (hb : b < 256) {z : Nat} (hz : z < 9) :
    ((byteBits b).take z).all (fun x => !x) = decide (b < 2 ^ (8 - z)) :=
  byteBits_take_all_eq ⟨b, hb⟩ ⟨z, hz⟩

theorem byteBits_takeWhile_len' {b : Nat} (hb : b < 256) :
    ((byteBits b).takeWhile (fun x => !x)).length = u8LeadingZeros b :=
  byteBits_takeWhile_len ⟨b, hb⟩

theorem hsg_single_eq' {b : Nat} (hb : b < 256) {z : Nat} (hz : z < 8) :
    hash_structure_good [b] z = ((byteBits b).take z).all (fun x => !x) :=
  hsg_single_eq ⟨b, hb⟩ ⟨z, hz⟩

/-- `difficulty_to_zero_bits`'s byte scan computes the leading-zero-bit
count of the byte string. -/
theorem dzbBytes_eq_leadingZeroBits : ∀ (bs : List Nat), (∀ b ∈ bs, b < 256) →
    dzbBytes bs = leadingZeroBits bs
  | [], _ => rfl
  | b :: rest, h => by
      have hb : b < 256 := h b (List.mem_cons_self b rest)
      have hrest : ∀ x ∈ rest, x < 256 := fun x hx => h x (List.mem_cons_of_mem _ hx)
      unfold dzbBytes leadingZeroBits
      rw [bytesToBits_cons]
      by_cases hb0 : b = 0
      · subst hb0
        have hall : (byteBits 0).all (fun x => !x) = true := by
          rw [byteBits_all_eq' (by omega)]
          rfl
        rw [if_pos rfl, takeWhile_append_of_all _ _ _ hall, List.length_append,
          length_byteBits, dzbBytes_eq_leadingZeroBits rest hrest]
        rfl
      · have hnall : (byteBits b).all (fun x => !x) = false := by
          rw [byteBits_all_eq' hb]
          simpa using hb0
        rw [if_neg hb0, takeWhile_append_of_not_all _ _ _ hnall,
          byteBits_takeWhile_len' hb]

/-- `hash_structure_good` on at least one spare byte peels eight requested
bits into one zero byte. -/
theorem hsg_cons_peel (b : Nat) (rest : List Nat) (z : Nat) :
    hash_structure_good (b :: rest) (8 + z) = ((b == 0) && hash_structure_good rest z) := by
  unfold hash_structure_good
  have h1 : (8 + z) / 8 = z / 8 + 1 := by omega
  have h2 : (8 + z) % 8 = z % 8 := by omega
  rw [h1, h2]
  simp only [List.length_cons, List.take_succ_cons, List.any_cons, List.getD_cons_succ,
    Nat.add_lt_add_iff_right]
  by_cases hb : b = 0
  · subst hb
    simp
  · have hbne : (b != 0) = true := by simpa using hb
    have hbeq : (b == 0) = false := by simpa using hb
    rw [hbne, hbeq]
    simp [ite_self]

theorem hsg_zero (bs : List Nat) : hash_structure_good bs 0 = true := by
  simp [hash_structure_good]

/-- On fewer than eight requested bits only the first byte matters. -/
theorem hsg_cons_small (b : Nat) (rest : List Nat) {z : Nat} (hz : z < 8) :
    hash_structure_good (b :: rest) z = hash_structure_good [b] z := by
  unfold hash_structure_good
  rw [Nat.div_eq_of_lt hz, Nat.mod_eq_of_lt hz]
  by_cases hz0 : z = 0 <;>
    simp [hz0, List.take_zero, List.any_nil, List.length_cons, List.getD_cons_zero]

theorem fbz_cons_small (b : Nat) (rest : List Nat) {z : Nat} (hz : z ≤ 8) :
    firstBitsZero (b :: rest) z = ((byteBits b).take z).all (fun x => !x) := by
  unfold firstBitsZero
  rw [bytesToBits_cons, List.take_append_eq_append_take, length_byteBits]
  have hz8 : z - 8 = 0 := by omega
  rw [hz8, List.take_zero, List.append_nil]

theorem fbz_cons_peel (b : Nat) (rest : List Nat) (z : Nat) :
    firstBitsZero (b :: rest) (8 + z) =
      (((byteBits b).all (fun x => !x)) && firstBitsZero rest z) := by
  unfold firstBitsZero
  rw [bytesToBits_cons, List.take_append_eq_append_take, length_byteBits]
  have h1 : 8 + z - 8 = z := by omega
  have h2 : List.take (8 + z) (byteBits b) = byteBits b :=
    List.take_of_length_le (by rw [length_byteBits]; omega)
  rw [h1, h2, List.all_append]

/-- The byte-arithmetic check of `validation.rs` computes the bit-prefix
test of the specification. -/
theorem hsg_eq_firstBitsZero : ∀ (bs : List Nat), (∀ b ∈ bs, b < 256) →
    ∀ z : Nat, z ≤ 8 * bs.length → hash_structure_good bs z = firstBitsZero bs z
  | [], _, z, hz => by
      have hz0 : z = 0 := by simpa using hz
      subst hz0
      rfl
  | b :: rest, hbs, z, hz => by
      have hb : b < 256 := hbs b (List.mem_cons_self b rest)
      have hrest : ∀ x ∈ rest, x < 256 := fun x hx => hbs x (List.mem_cons_of_mem _ hx)
      by_cases h8 : 8 ≤ z
      · obtain ⟨z', rfl⟩ : ∃ z', z = 8 + z' := ⟨z - 8, by omega⟩
        rw [hsg_cons_peel, fbz_cons_peel, byteBits_all_eq' hb]
        have hz' : z' ≤ 8 * rest.length := by
          simp only [List.length_cons] at hz
          omega
        rw [hsg_eq_firstBitsZero rest hrest z' hz']
      · push_neg at h8
        rw [hsg_cons_small b rest h8, fbz_cons_small b rest (by omega),
          hsg_single_eq' hb h8]

/-- The first `z` bits of a byte string are zero exactly when its big-endian
value is below `2 ^ (bits - z)`. -/
theorem firstBitsZero_iff_lt : ∀ (bs : List Nat), (∀ b ∈ bs, b < 256) →
    ∀ z : Nat, z ≤ 8 * bs.length →
    (firstBitsZero bs z = true ↔ beVal bs < 2 ^ (8 * bs.length - z))
  | [], _, z, hz => by
      have hz0 : z = 0 := by simpa using hz
      subst hz0
      simp [firstBitsZero, bytesToBits, beVal]
  | b :: rest, hbs, z, hz => by
      have hb : b < 256 := hbs b (List.mem_cons_self b rest)
      have hrest : ∀ x ∈ rest, x < 256 := fun x hx => hbs x (List.mem_cons_of_mem _ hx)
      have hbv : beVal rest < 256 ^ rest.length := beVal_lt hrest
      have h28 : (2 : Nat) ^ (8 * rest.length) = 256 ^ rest.length := by
        rw [show (256 : Nat) = 2 ^ 8 from rfl, ← Nat.pow_mul]
      by_cases h8 : 8 ≤ z
      · obtain ⟨z', rfl⟩ : ∃ z', z = 8 + z' := ⟨z - 8, by omega⟩
        have hz' : z' ≤ 8 * rest.length := by
          simp only [List.length_cons] at hz
          omega
        rw [fbz_cons_peel, byteBits_all_eq' hb, beVal_cons]
        have hexp : 8 * (b :: rest).length - (8 + z') = 8 * rest.length - z' := by
          simp only [List.length_cons]
          omega
        rw [hexp]
        have hpow : (2 : Nat) ^ (8 * rest.length - z') ≤ 256 ^ rest.length := by
          rw [← h28]
          exact Nat.pow_le_pow_right (by omega) (by omega)
        have ih := firstBitsZero_iff_lt rest hrest z' hz'
        constructor
        · intro h
          simp only [Bool.and_eq_true, beq_iff_eq] at h
          rw [h.1]
          simpa using ih.mp h.2
        · intro h
          have hb0 : b = 0 := by
            by_contra hbne
            have hge : 256 ^ rest.length ≤ b * 256 ^ rest.length :=
              Nat.le_mul_of_pos_left _ (by omega)
            omega
          subst hb0
          simp only [Nat.zero_mul, Nat.zero_add] at h
          simp [ih.mpr h]
      · push_neg at h8
        rw [fbz_cons_small b rest (by omega), byteBits_take_all_eq' hb (by omega),
          beVal_cons]
        have hexp : 8 * (b :: rest).length - z = (8 - z) + 8 * rest.length := by
          simp only [List.length_cons]
          omega
        rw [hexp, pow_add, h28]
        simp only [decide_eq_true_eq]
        constructor
        · intro hlt
          have hmul : (b + 1) * 256 ^ rest.length ≤ 2 ^ (8 - z) * 256 ^ rest.length :=
            Nat.mul_le_mul_right _ (by omega)
          have hb1 : b * 256 ^ rest.length + beVal rest < (b + 1) * 256 ^ rest.length := by
            rw [Nat.succ_mul]
            omega
          omega
        · intro hlt
          by_contra hge
          push_neg at hge
          have hmul : 2 ^ (8 - z) * 256 ^ rest.length ≤ b * 256 ^ rest.length :=
            Nat.mul_le_mul_right _ hge
          omega

theorem bytesToBits_take : ∀ (k : Nat) (bs : List Nat),
    bytesToBits (bs.take k) = (bytesToBits bs).take (8 * k)
  | 0, bs => by simp [bytesToBits]
  | k + 1, [] => by simp [bytesToBits]
  | k + 1, b :: rest => by
      rw [List.take_succ_cons, bytesToBits_cons, bytesToBits_cons,
        List.take_append_eq_append_take, length_byteBits]
      have h1 : List.take (8 * (k + 1)) (byteBits b) = byteBits b :=
        List.take_of_length_le (by rw [length_byteBits]; omega)
      have h2 : 8 * (k + 1) - 8 = 8 * k := by omega
      rw [h1, h2, bytesToBits_take k rest]

/-- Whether the first `z` bits are zero only depends on the first
`⌈z / 8⌉` bytes. -/
theorem firstBitsZero_take (bs : List Nat) (k z : Nat) (hz : z ≤ 8 * k) :
    firstBitsZero (bs.take k) z = firstBitsZero bs z := by
  unfold firstBitsZero
  rw [bytesToBits_take, List.take_take, inf_eq_left.mpr hz]

theorem leadingZeroBits_le (bs : List Nat) : leadingZeroBits bs ≤ 8 * bs.length := by
  unfold leadingZeroBits
  calc ((bytesToBits bs).takeWhile (fun bit => !bit)).length
      ≤ (bytesToBits bs).length := length_takeWhile_le _ _
    _ = 8 * bs.length := length_bytesToBits bs

/-- The first `leadingZeroBits bs` bits of `bs` are zero. -/
theorem firstBitsZero_leadingZeroBits (bs : List Nat) :
    firstBitsZero bs (leadingZeroBits bs) = true := by
  unfold firstBitsZero leadingZeroBits
  rw [take_length_takeWhile]
  exact all_of_takeWhile _ _

/-! ## Characterization of `matches_difficulty` -/

/-- The prefix parse inside `matches_difficulty` succeeds on a decodable hash
and yields the big-endian value of the first four bytes. -/
theorem prefix_parse_of_decode (h : String) (hb : List Nat) (hhl : 8 ≤ h.length)
    (hhd : hexDecode h = some hb) :
    u32FromStrRadix16 (h.data.take 8) = some (beVal (hb.take 4)) := by
  have hhd' : decodePairs h.data = some hb := hhd
  have hdl : h.data.length = h.length := rfl
  have htk : decodePairs (h.data.take 8) = some (hb.take 4) := by
    have := decodePairs_take 4 hhd'
    norm_num at this
    exact this
  have hlen8 : (h.data.take 8).length = 8 := by
    rw [List.length_take]
    omega
  apply u32Parse_of_decode htk
  · rintro hnil
    rw [hnil] at hlen8
    simp at hlen8
  · omega

/-- The mask parse inside `matches_difficulty` succeeds on a decodable
8-character difficulty and yields the big-endian value of its four bytes. -/
theorem mask_parse_of_decode (d : String) (db : List Nat) (hdl : d.length = 8)
    (hdd : hexDecode d = some db) :
    u32FromStrRadix16 d.data = some (beVal db) := by
  have hdd' : decodePairs d.data = some db := hdd
  have hdl' : d.data.length = d.length := rfl
  apply u32Parse_of_decode hdd'
  · rintro hnil
    rw [hnil] at hdl'
    rw [hdl] at hdl'
    simp at hdl'
  · omega

/-- The full characterization of `matches_difficulty` on well-formed input:
the parses succeed with the big-endian byte values, and the result is `Ok
true` exactly when the mask-union check and the bit-level zero-prefix check
both pass. -/
theorem matches_difficulty_characterization (h d : String) (hb db : List Nat)
    (hhl : 8 ≤ h.length) (hhd : hexDecode h = some hb)
    (hdl : d.length = 8) (hdd : hexDecode d = some db) :
    u32FromStrRadix16 (h.data.take 8) = some (beVal (hb.take 4)) ∧
    u32FromStrRadix16 d.data = some (beVal db) ∧
    (matches_difficulty h d = .ok true ↔
      ((beVal (hb.take 4) ||| beVal db) = beVal db ∧
        firstBitsZero hb (leadingZeroBits db) = true)) := by
  have hhd' : decodePairs h.data = some hb := hhd
  have hdd' : decodePairs d.data = some db := hdd
  have hP1 := prefix_parse_of_decode h hb hhl hhd
  have hP2 := mask_parse_of_decode d db hdl hdd
  refine ⟨hP1, hP2, ?_⟩
  have hdatal : h.data.length = h.length := rfl
  have hddatal : d.data.length = d.length := rfl
  have hdbl : db.length = 4 := by
    have := decodePairs_length hdd'
    omega
  have hhbl : 4 ≤ hb.length := by
    have := decodePairs_length hhd'
    omega
  have hdz : dzbBytes db = leadingZeroBits db :=
    dzbBytes_eq_leadingZeroBits db (decodePairs_mem_lt hdd')
  have hZ32 : leadingZeroBits db ≤ 32 := by
    have := leadingZeroBits_le db
    rw [hdbl] at this
    omega
  have hhsg : hash_structure_good hb (dzbBytes db) =
      firstBitsZero hb (leadingZeroBits db) := by
    rw [hdz]
    exact hsg_eq_firstBitsZero hb (decodePairs_mem_lt hhd') _ (by omega)
  have hdzb : difficulty_to_zero_bits d = some (dzbBytes db) := by
    simp [difficulty_to_zero_bits, hexDecode, hdd']
  unfold matches_difficulty
  rw [if_neg (by omega), if_neg (by omega)]
  simp only [hhd, hP1, hP2, hdzb]
  by_cases hsh : (beVal (hb.take 4) ||| beVal db) = beVal db
  · have hbeq : (beVal (hb.take 4) ||| beVal db == beVal db) = true := by
      simpa using hsh
    rw [hbeq]
    simp only [Bool.not_true, Bool.false_eq_true, if_false, Bool.and_true]
    rw [hhsg]
    simp only [Except.ok.injEq]
    constructor
    · intro hfb
      exact ⟨hsh, hfb⟩
    · intro hconj
      exact hconj.2
  · have hbeq : (beVal (hb.take 4) ||| beVal db == beVal db) = false := by
      simpa using hsh
    rw [hbeq]
    simp only [Bool.not_false, if_true]
    constructor
    · intro hfalse
      simp at hfalse
    · intro hconj
      exact absurd hconj.1 hsh

/-- A passing mask-union check forces the zero-bits check: all set bits of
the hash prefix are set in the mask, so the hash prefix is below every power
of two the mask is below, and the mask is below `2 ^ (32 - Z)`. -/
theorem shadow_implies_fbz {hb db : List Nat} (hhbl : 4 ≤ hb.length)
    (hdbl : db.length = 4) (hbB : ∀ b ∈ hb, b < 256) (hdB : ∀ b ∈ db, b < 256)
    (hsh : (beVal (hb.take 4) ||| beVal db) = beVal db) :
    firstBitsZero hb (leadingZeroBits db) = true := by
  set Z := leadingZeroBits db with hZ
  have hZ32 : Z ≤ 32 := by
    have := leadingZeroBits_le db
    rw [hdbl] at this
    omega
  have htl : (hb.take 4).length = 4 := by
    rw [List.length_take]
    omega
  have htB : ∀ b ∈ hb.take 4, b < 256 := fun b hbm => hbB b (List.take_subset _ _ hbm)
  -- the hash prefix's bits are a subset of the mask's bits, so prefix ≤ mask
  have habs : beVal (hb.take 4) &&& beVal db = beVal (hb.take 4) := by
    apply Nat.eq_of_testBit_eq
    intro i
    have hor := congrArg (fun n => Nat.testBit n i) hsh
    simp only [Nat.testBit_or] at hor
    rw [Nat.testBit_and]
    cases hpb : (beVal (hb.take 4)).testBit i <;>
      cases hmb : (beVal db).testBit i <;> simp_all
  have hple : beVal (hb.take 4) ≤ beVal db := by
    calc beVal (hb.take 4) = beVal (hb.take 4) &&& beVal db := habs.symm
      _ ≤ beVal db := Nat.and_le_right
  have hmlt : beVal db < 2 ^ (32 - Z) := by
    have hfb : firstBitsZero db Z = true := firstBitsZero_leadingZeroBits db
    have := (firstBitsZero_iff_lt db hdB Z (by omega)).mp hfb
    rw [hdbl] at this
    simpa using this
  have hplt : beVal (hb.take 4) < 2 ^ (32 - Z) := lt_of_le_of_lt hple hmlt
  have hfb4 : firstBitsZero (hb.take 4) Z = true := by
    apply (firstBitsZero_iff_lt (hb.take 4) htB Z (by omega)).mpr
    rw [htl]
    simpa using hplt
  rw [← firstBitsZero_take hb 4 Z (by omega)]
  exact hfb4

/-! ## Claims C1, C6, C9: the difficulty predicate -/

/-- Claim C1: for every hash hex string of at least 8 hex characters that
decodes to bytes and every difficulty of exactly 8 hex characters,
`matches_difficulty` returns `Ok(true)` iff (A) the big-endian `u32` parsed
from the first 8 hash characters or-ed with the parsed mask equals the mask,
and (B) the first `Z` bits of the decoded hash bytes are all zero, where `Z`
is the number of leading zero bits of the 4 bytes of the mask. -/
theorem C1_matches_difficulty_dual (h d : String) (hb db : List Nat)
    (hhl : 8 ≤ h.length) (hhd : hexDecode h = some hb)
    (hdl : d.length = 8) (hdd : hexDecode d = some db) :
    u32FromStrRadix16 (h.data.take 8) = some (beVal (hb.take 4)) ∧
    u32FromStrRadix16 d.data = some (beVal db) ∧
    (matches_difficulty h d = .ok true ↔
      ((beVal (hb.take 4) ||| beVal db) = beVal db ∧
        firstBitsZero hb (leadingZeroBits db) = true)) :=
  matches_difficulty_characterization h d hb db hhl hhd hdl hdd

/-- Witness for C1 at the concrete inputs
`hash = 0000000011112222`, `difficulty = 7fffffff`. -/
theorem C1_matches_difficulty_dual_witness :
    matches_difficulty ("0000000011112222") ("7fffffff") = .ok true := by
  have h := C1_matches_difficulty_dual ("0000000011112222") ("7fffffff")
    [0, 0, 0, 0, 17, 17, 34, 34] [127, 255, 255, 255]
    (by decide) (by decide) (by decide) (by decide)
  exact h.2.2.mpr ⟨by decide, by decide⟩

/-- Claim C6: `estimate_hashes_needed` returns `2 ^ Z` where `Z` is the
leading-zero-bit count of the decoded difficulty bytes, capped at
`u64::MAX` when `Z ≥ 64`. -/
theorem C6_estimate_hashes_needed (d : String) (db : List Nat)
    (hdd : hexDecode d = some db) :
    estimate_hashes_needed d =
      .ok (if 64 ≤ leadingZeroBits db then 2 ^ 64 - 1 else 2 ^ leadingZeroBits db) := by
  have hdd' : decodePairs d.data = some db := hdd
  have hdz : dzbBytes db = leadingZeroBits db :=
    dzbBytes_eq_leadingZeroBits db (decodePairs_mem_lt hdd')
  unfold estimate_hashes_needed difficulty_to_zero_bits
  simp only [hexDecode, hdd', Option.map_some', hdz, apply_ite (Except.ok (ε := String))]

/-- Witness for C6 at the three specified difficulties. -/
theorem C6_estimate_hashes_needed_witness :
    estimate_hashes_needed ("ffffffff") = .ok 1 ∧
    estimate_hashes_needed ("00ffffff") = .ok 256 ∧
    estimate_hashes_needed ("0000ffff") = .ok 65536 := by
  refine ⟨?_, ?_, ?_⟩
  · rw [C6_estimate_hashes_needed ("ffffffff") [255, 255, 255, 255] (by decide)]
    rfl
  · rw [C6_estimate_hashes_needed ("00ffffff") [0, 255, 255, 255] (by decide)]
    rfl
  · rw [C6_estimate_hashes_needed ("0000ffff") [0, 0, 255, 255] (by decide)]
    rfl

/-- Claim C9: on well-formed input the mask-union check implies the
zero-bits check, so the dual predicate collapses to the mask-union check
alone. -/
theorem C9_dual_collapses (h d : String) (hb db : List Nat)
    (hhl : 8 ≤ h.length) (hhd : hexDecode h = some hb)
    (hdl : d.length = 8) (hdd : hexDecode d = some db) :
    ((beVal (hb.take 4) ||| beVal db) = beVal db →
      hash_structure_good hb (dzbBytes db) = true) ∧
    (matches_difficulty h d = .ok true ↔
      (beVal (hb.take 4) ||| beVal db) = beVal db) := by
  have hhd' : decodePairs h.data = some hb := hhd
  have hdd' : decodePairs d.data = some db := hdd
  have hdatal : h.data.length = h.length := rfl
  have hddatal : d.data.length = d.length := rfl
  have hdbl : db.length = 4 := by
    have := decodePairs_length hdd'
    omega
  have hhbl : 4 ≤ hb.length := by
    have := decodePairs_length hhd'
    omega
  have hdz : dzbBytes db = leadingZeroBits db :=
    dzbBytes_eq_leadingZeroBits db (decodePairs_mem_lt hdd')
  have hZ32 : leadingZeroBits db ≤ 32 := by
    have := leadingZeroBits_le db
    rw [hdbl] at this
    omega
  have himp : (beVal (hb.take 4) ||| beVal db) = beVal db →
      hash_structure_good hb (dzbBytes db) = true := by
    intro hsh
    rw [hdz, hsg_eq_firstBitsZero hb (decodePairs_mem_lt hhd') _ (by omega)]
    exact shadow_implies_fbz hhbl hdbl (decodePairs_mem_lt hhd')
      (decodePairs_mem_lt hdd') hsh
  refine ⟨himp, ?_⟩
  have hch := (matches_difficulty_characterization h d hb db hhl hhd hdl hdd).2.2
  rw [hch]
  constructor
  · exact fun hconj => hconj.1
  · intro hsh
    refine ⟨hsh, ?_⟩
    exact shadow_implies_fbz hhbl hdbl (decodePairs_mem_lt hhd')
      (decodePairs_mem_lt hdd') hsh

/-- Witness for C9: with `hash = 0fffffff00000000` and
`difficulty = 0fffffff` the mask-union check alone decides acceptance. -/
theorem C9_dual_collapses_witness :
    hash_structure_good [15, 255, 255, 255, 0, 0, 0, 0]
      (dzbBytes [15, 255, 255, 255]) = true ∧
    matches_difficulty ("0fffffff00000000") ("0fffffff") = .ok true := by
  have h := C9_dual_collapses ("0fffffff00000000") ("0fffffff")
    [15, 255, 255, 255, 0, 0, 0, 0] [15, 255, 255, 255]
    (by decide) (by decide) (by decide) (by decide)
  exact ⟨h.1 (by decide), h.2.mpr (by decide)⟩

/-! ## Claim C8: error behaviour of `matches_difficulty` -/

/-- Counterexample to C8 as stated: the difficulty string `+fffffff` parses
as a `u32` (Rust's `from_str_radix` accepts a leading plus sign) but fails
`hex::decode`.  Whether `matches_difficulty` errors on it then depends on
the hash: it errors after a passing mask-union check and returns `Ok(false)`
after a failing one — so "error exactly on malformed input" fails under
either reading of "failing to parse as hex". -/
theorem C8_counterexample :
    matches_difficulty ("00000000") ("+fffffff") =
      .error ("Failed to decode difficulty hex") ∧
    matches_difficulty ("ffffffff") ("+fffffff") = .ok false ∧
    hexDecode ("+fffffff") = none ∧
    u32FromStrRadix16 ("+fffffff" : String).data = some 268435455 := by
  refine ⟨rfl, rfl, by decide, by decide⟩

/-- Claim C8 as amended: `matches_difficulty` errors exactly when the hash
is shorter than 8 characters, the difficulty is not exactly 8 characters,
the hash fails hex decoding, the difficulty fails `u32` hex parsing, or the
mask-union check passes and the difficulty fails strict hex decoding (the
last two cases differ only for a difficulty with a leading plus sign). -/
theorem C8_amended_error_iff (h d : String) :
    (∃ e, matches_difficulty h d = .error e) ↔
      (h.length < 8 ∨ d.length ≠ 8 ∨ hexDecode h = none ∨
        u32FromStrRadix16 d.data = none ∨
        (∃ p m, u32FromStrRadix16 (h.data.take 8) = some p ∧
          u32FromStrRadix16 d.data = some m ∧ (p ||| m) = m ∧
          hexDecode d = none)) := by
  constructor
  · rintro ⟨e, he⟩
    by_cases h1 : h.length < 8
    · exact Or.inl h1
    by_cases h2 : d.length = 8
    case neg => exact Or.inr (Or.inl h2)
    cases hh : hexDecode h with
    | none => exact Or.inr (Or.inr (Or.inl rfl))
    | some hb =>
      cases hm : u32FromStrRadix16 d.data with
      | none => exact Or.inr (Or.inr (Or.inr (Or.inl rfl)))
      | some m =>
        have hP1 := prefix_parse_of_decode h hb (by omega) hh
        unfold matches_difficulty at he
        rw [if_neg h1, if_neg (by omega), hh] at he
        simp only [hP1, hm] at he
        by_cases hsh : (beVal (hb.take 4) ||| m) = m
        · have hbeq : (beVal (hb.take 4) ||| m == m) = true := by simpa using hsh
          rw [hbeq] at he
          simp only [Bool.not_true, Bool.false_eq_true, if_false] at he
          cases hd : hexDecode d with
          | some db =>
            have hz : difficulty_to_zero_bits d = some (dzbBytes db) := by
              unfold difficulty_to_zero_bits
              rw [hd]
              rfl
            rw [hz] at he
            simp at he
          | none =>
            exact Or.inr (Or.inr (Or.inr (Or.inr ⟨_, _, hP1, rfl, hsh, rfl⟩)))
        · have hbeq : (beVal (hb.take 4) ||| m == m) = false := by simpa using hsh
          rw [hbeq] at he
          simp at he
  · intro hdisj
    unfold matches_difficulty
    by_cases h1 : h.length < 8
    · rw [if_pos h1]
      exact ⟨_, rfl⟩
    rw [if_neg h1]
    by_cases h2 : d.length = 8
    case neg =>
      rw [if_pos h2]
      exact ⟨_, rfl⟩
    rw [if_neg (show ¬ d.length ≠ 8 by omega)]
    cases hh : hexDecode h with
    | none => exact ⟨_, rfl⟩
    | some hb =>
      have hP1 := prefix_parse_of_decode h hb (by omega) hh
      simp only [hP1]
      cases hm : u32FromStrRadix16 d.data with
      | none => exact ⟨_, rfl⟩
      | some m =>
        simp only []
        rcases hdisj with hc | hc | hc | hc | ⟨p, m', hp, hm', hsh', hdn⟩
        · exact absurd hc h1
        · exact absurd h2 hc
        · rw [hh] at hc
          exact absurd hc (by simp)
        · rw [hm] at hc
          exact absurd hc (by simp)
        · rw [hP1] at hp
          rw [hm] at hm'
          simp only [Option.some.injEq] at hp hm'
          subst hp
          subst hm'
          have hbeq : (beVal (hb.take 4) ||| m == m) = true := by simpa using hsh'
          rw [hbeq]
          simp only [Bool.not_true, Bool.false_eq_true, if_false]
          have hz : difficulty_to_zero_bits d = none := by
            unfold difficulty_to_zero_bits
            rw [hdn]
            rfl
          rw [hz]
          exact ⟨_, rfl⟩

/-- Witness for the amended C8: a difficulty of the wrong length errors, and
so does the plus-sign difficulty behind a passing mask-union check. -/
theorem C8_amended_error_iff_witness :
    (∃ e, matches_difficulty ("0000000011112222") ("7fffff") = .error e) ∧
    (∃ e, matches_difficulty ("00000000") ("+fffffff") = .error e) := by
  constructor
  · exact (C8_amended_error_iff ("0000000011112222") ("7fffff")).mpr
      (Or.inr (Or.inl (by decide)))
  · exact (C8_amended_error_iff ("00000000") ("+fffffff")).mpr
      (Or.inr (Or.inr (Or.inr (Or.inr
        ⟨0, 268435455, by decide, by decide, by decide, by decide⟩))))

/-! ## Claim C3: the nonce schedule of `start_mining_handler` -/

/-- Counterexample to C3 as stated: the mining loop is unbounded, so after
100000 batches of 10000 nonces worker 0 reaches nonce `10^9`, which is
worker 1's very first probed nonce — two distinct workers probe the same
nonce, and worker 0 leaves `[0, 10^9)`. -/
theorem C3_counterexample :
    startMiningNonce 0 100000 0 = startMiningNonce 1 0 0 ∧
    startMiningNonce 1 0 0 = startMiningFirstNonce 1 ∧
    ¬ startMiningNonce 0 100000 0 < (0 + 1) * 1000000000 := by
  refine ⟨by decide, by decide, by decide⟩

/-- Claim C3 as amended: the first probed nonce is `w * 10^9`, and within
the first 100000 batches (the first `10^9` probed nonces) every nonce of a
worker whose window does not overflow `u64` stays in
`[w * 10^9, (w+1) * 10^9)`, so two such distinct workers never collide. -/
theorem C3_amended_nonce_schedule (w j i : Nat) (hw : (w + 1) * 1000000000 ≤ 2 ^ 64)
    (hj : j < 100000) (hi : i < 10000) :
    startMiningNonce w 0 0 = w * 1000000000 ∧
    w * 1000000000 ≤ startMiningNonce w j i ∧
    startMiningNonce w j i < (w + 1) * 1000000000 ∧
    (∀ w' j' i', (w' + 1) * 1000000000 ≤ 2 ^ 64 → j' < 100000 → i' < 10000 →
      w ≠ w' → startMiningNonce w j i ≠ startMiningNonce w' j' i') := by
  have key : ∀ w0 j0 i0, (w0 + 1) * 1000000000 ≤ 2 ^ 64 → j0 < 100000 → i0 < 10000 →
      startMiningNonce w0 j0 i0 = w0 * 1000000000 + j0 * 10000 + i0 := by
    intro w0 j0 i0 hw0 hj0 hi0
    unfold startMiningNonce nonceAfterBatches
    have e1 : w0 * 1000000000 + j0 * 10000 < 2 ^ 64 := by omega
    rw [Nat.mod_eq_of_lt e1, Nat.mod_eq_of_lt (by omega)]
  refine ⟨?_, ?_, ?_, ?_⟩
  · rw [key w 0 0 hw (by omega) (by omega)]
    omega
  · rw [key w j i hw hj hi]
    omega
  · rw [key w j i hw hj hi]
    omega
  · intro w' j' i' hw' hj' hi' hne
    rw [key w j i hw hj hi, key w' j' i' hw' hj' hi']
    omega

/-- Witness for the amended C3 at workers 0 and 1. -/
theorem C3_amended_nonce_schedule_witness :
    startMiningNonce 0 0 0 = 0 ∧
    startMiningNonce 0 0 0 ≠ startMiningNonce 1 0 0 := by
  have h0 := C3_amended_nonce_schedule 0 0 0 (by norm_num) (by norm_num) (by norm_num)
  refine ⟨by simpa using h0.1, ?_⟩
  exact h0.2.2.2 1 0 0 (by norm_num) (by norm_num) (by norm_num) (by norm_num)

/-! ## Claim C4: the preimage builder -/

set_option maxRecDepth 2000 in
/-- Each hex digit character round-trips through `hexDigitVal?`. -/
theorem hexDigitVal?_hexDigitChar : ∀ n : Fin 16,
    hexDigitVal? (hexDigitChar n.val) = some n.val := by decide

set_option maxRecDepth 2000 in
/-- Each hex digit character is one of the sixteen lowercase digits. -/
theorem hexDigitChar_mem : ∀ n : Fin 16,
    hexDigitChar n.val ∈ ("0123456789abcdef" : String).data := by decide

/-- The fuel of `hexDigitsCore` is irrelevant once it exceeds the value. -/
theorem hexDigitsCore_irrel : ∀ (f1 n f2 : Nat), n < f1 → n < f2 →
    hexDigitsCore n f1 = hexDigitsCore n f2
  | 0, n, _, h1, _ => by omega
  | _ + 1, n, 0, _, h2 => by omega
  | f1 + 1, n, f2 + 1, h1, h2 => by
      by_cases h16 : n < 16
      · simp [hexDigitsCore, h16]
      · simp only [hexDigitsCore, if_neg h16]
        have hdiv : n / 16 < n := Nat.div_lt_self (by omega) (by omega)
        rw [hexDigitsCore_irrel f1 (n / 16) f2 (by omega) (by omega)]

/-- One-step unfolding of `hexDigits`. -/
theorem hexDigits_eq (n : Nat) : hexDigits n =
    if n < 16 then [hexDigitChar n]
    else hexDigits (n / 16) ++ [hexDigitChar (n % 16)] := by
  by_cases h16 : n < 16
  · simp [hexDigits, hexDigitsCore, h16]
  · show hexDigitsCore n (n + 1) = _
    simp only [hexDigitsCore, if_neg h16]
    have hdiv : n / 16 < n := Nat.div_lt_self (by omega) (by omega)
    rw [hexDigitsCore_irrel n (n / 16) (n / 16 + 1) (by omega) (by omega)]
    rfl

/-- `hexDigits` of a value below `16 ^ k` has at most `k` digits. -/
theorem hexDigits_length_le : ∀ (k n : Nat), n < 16 ^ k → 1 ≤ k →
    (hexDigits n).length ≤ k
  | 0, n, hn, hk => by omega
  | k + 1, n, hn, _ => by
      rw [hexDigits_eq]
      by_cases h16 : n < 16
      · rw [if_pos h16]
        simp
      · rw [if_neg h16]
        rw [List.length_append]
        simp only [List.length_cons, List.length_nil]
        have hdiv : n / 16 < 16 ^ k := by
          rw [pow_succ] at hn
          exact Nat.div_lt_of_lt_mul (by omega)
        have hk1 : 1 ≤ k := by
          by_contra hk0
          have : k = 0 := by omega
          subst this
          simp at hdiv
          omega
        have := hexDigits_length_le k (n / 16) hdiv hk1
        omega

theorem hexDigits_chars (n : Nat) :
    ∀ c ∈ hexDigits n, c ∈ ("0123456789abcdef" : String).data := by
  induction n using Nat.strong_induction_on with
  | _ n ih =>
    rw [hexDigits_eq]
    by_cases h16 : n < 16
    · rw [if_pos h16]
      intro c hc
      simp only [List.mem_singleton] at hc
      subst hc
      exact hexDigitChar_mem ⟨n, h16⟩
    · rw [if_neg h16]
      intro c hc
      rcases List.mem_append.mp hc with hc | hc
      · exact ih (n / 16) (Nat.div_lt_self (by omega) (by omega)) c hc
      · simp only [List.mem_singleton] at hc
        subst hc
        exact hexDigitChar_mem ⟨n % 16, Nat.mod_lt _ (by omega)⟩

/-- `hexDigits` renders the value it was given. -/
theorem hexVal_hexDigits (n : Nat) : hexVal (hexDigits n) = n := by
  induction n using Nat.strong_induction_on with
  | _ n ih =>
    rw [hexDigits_eq]
    by_cases h16 : n < 16
    · rw [if_pos h16]
      unfold hexVal
      rw [List.foldl_cons, List.foldl_nil, hexDigitVal?_hexDigitChar ⟨n, h16⟩]
      simp
    · rw [if_neg h16]
      unfold hexVal
      rw [List.foldl_append]
      have ihdiv : hexVal (hexDigits (n / 16)) = n / 16 :=
        ih (n / 16) (Nat.div_lt_self (by omega) (by omega))
      unfold hexVal at ihdiv
      rw [ihdiv, List.foldl_cons, List.foldl_nil,
        hexDigitVal?_hexDigitChar ⟨n % 16, Nat.mod_lt _ (by omega)⟩]
      simp only [Option.getD_some]
      omega

/-- Leading zero characters do not change the hex value. -/
theorem hexVal_replicate_zero : ∀ (k : Nat) (l : List Char),
    hexVal (List.replicate k '0' ++ l) = hexVal l
  | 0, l => by simp
  | k + 1, l => by
      show hexVal ('0' :: (List.replicate k '0' ++ l)) = hexVal l
      unfold hexVal
      rw [List.foldl_cons]
      have h0 : (hexDigitVal? '0').getD 0 = 0 := by decide
      rw [h0]
      simpa [hexVal] using hexVal_replicate_zero k l

/-- Claim C4: `build_preimage` is the plain concatenation of the
zero-padded 16-character lowercase hex nonce with the six challenge fields,
in order, with no separator; the nonce rendering has length 16, consists of
lowercase hex digits, and parses back to the nonce.  It coincides with the
string-based builder of `preimage.rs` applied to the rendered nonce. -/
theorem C4_build_preimage (nonce : Nat) (hn : nonce < 2 ^ 64)
    (address challenge_id difficulty no_pre_mine latest_submission
      no_pre_mine_hour : String) :
    build_preimage nonce address challenge_id difficulty no_pre_mine
        latest_submission no_pre_mine_hour =
      formatHex016 nonce ++ address ++ challenge_id ++ difficulty ++ no_pre_mine
        ++ latest_submission ++ no_pre_mine_hour ∧
    build_preimage nonce address challenge_id difficulty no_pre_mine
        latest_submission no_pre_mine_hour =
      build_preimage_str (formatHex016 nonce) address
        ⟨challenge_id, difficulty, no_pre_mine, latest_submission,
          no_pre_mine_hour⟩ ∧
    (formatHex016 nonce).length = 16 ∧
    (∀ c ∈ (formatHex016 nonce).data, c ∈ ("0123456789abcdef" : String).data) ∧
    hexVal (formatHex016 nonce).data = nonce := by
  have hlen : (hexDigits nonce).length ≤ 16 := by
    apply hexDigits_length_le 16 nonce ?_ (by omega)
    calc nonce < 2 ^ 64 := hn
      _ = 16 ^ 16 := by norm_num
  refine ⟨rfl, rfl, ?_, ?_, ?_⟩
  · show (List.replicate (16 - (hexDigits nonce).length) '0' ++ hexDigits nonce).length = 16
    rw [List.length_append, List.length_replicate]
    omega
  · intro c hc
    show c ∈ _
    rcases List.mem_append.mp hc with hc | hc
    · have : c = '0' := List.eq_of_mem_replicate hc
      subst this
      decide
    · exact hexDigits_chars nonce c hc
  · show hexVal (List.replicate (16 - (hexDigits nonce).length) '0'
        ++ hexDigits nonce) = nonce
    rw [hexVal_replicate_zero, hexVal_hexDigits]

/-- Witness for C4: the S1 scenario — nonce 1 with the given challenge
fields yields the specified preimage. -/
theorem C4_build_preimage_witness :
    build_preimage 1 ("addr1test123") ("**D07C10") ("ffffffff") ("e8a195800b")
        ("abc123") ("def456") =
      ("0000000000000001addr1test123**D07C10ffffffffe8a195800babc123def456") ∧
    (formatHex016 1).length = 16 := by
  have h := C4_build_preimage 1 (by norm_num) ("addr1test123") ("**D07C10")
    ("ffffffff") ("e8a195800b") ("abc123") ("def456")
  refine ⟨?_, h.2.2.1⟩
  rw [h.1]
  decide

/-! ## Claims C2, C5: instruction semantics -/

theorem evalOperand_prog_digest (D : DigestSpec) (rom : Rom)
    (vm : VMState D.State) (op : Operand) (r lit : Nat) :
    (evalOperand D rom vm op r lit).2.prog_digest = vm.prog_digest := by
  cases op <;> rfl

/-- Unfolding of `execute_one_instruction` on a 3-ary opcode. -/
theorem execute_op3 (D : DigestSpec) (rom : Rom) (vm : VMState D.State)
    (operator : Op3)
    (hop : (decode_instruction (fetchChunk vm)).opcode = .Op3 operator) :
    execute_one_instruction D rom vm =
      (let ins := decode_instruction (fetchChunk vm)
       let ev1 := evalOperand D rom vm ins.op1 ins.r1 ins.lit1
       let ev2 := evalOperand D rom ev1.2 ins.op2 ins.r2 ins.lit2
       let result := op3Result D operator ev2.2 ev1.1 ev2.1
       let vm3 := { ev2.2 with regs := ev2.2.regs.set ins.r3 result }
       { vm3 with prog_digest := D.update vm3.prog_digest (fetchChunk vm) }) := by
  simp only [execute_one_instruction, hop]

/-- Unfolding of `execute_one_instruction` on a 2-ary opcode. -/
theorem execute_op2 (D : DigestSpec) (rom : Rom) (vm : VMState D.State)
    (operator : Op2)
    (hop : (decode_instruction (fetchChunk vm)).opcode = .Op2 operator) :
    execute_one_instruction D rom vm =
      (let ins := decode_instruction (fetchChunk vm)
       let ev1 := evalOperand D rom vm ins.op1 ins.r1 ins.lit1
       let result := op2Result operator ev1.1 ins.r1
       let vm2 := { ev1.2 with regs := ev1.2.regs.set ins.r3 result }
       { vm2 with prog_digest := D.update vm2.prog_digest (fetchChunk vm) }) := by
  simp only [execute_one_instruction, hop]

theorem decode_div (chunk : List Nat) (hlo : 96 ≤ instrByte chunk 0)
    (hhi : instrByte chunk 0 < 112) :
    (decode_instruction chunk).opcode = .Op3 .Div := by
  show instrFromByte (instrByte chunk 0) = _
  unfold instrFromByte
  split_ifs <;> first | rfl | omega

theorem decode_mod (chunk : List Nat) (hlo : 112 ≤ instrByte chunk 0)
    (hhi : instrByte chunk 0 < 128) :
    (decode_instruction chunk).opcode = .Op3 .Mod := by
  show instrFromByte (instrByte chunk 0) = _
  unfold instrFromByte
  split_ifs <;> first | rfl | omega

theorem decode_rotl (chunk : List Nat) (hlo : 188 ≤ instrByte chunk 0)
    (hhi : instrByte chunk 0 < 204) :
    (decode_instruction chunk).opcode = .Op2 .RotL := by
  show instrFromByte (instrByte chunk 0) = _
  unfold instrFromByte
  split_ifs <;> first | rfl | omega

theorem decode_rotr (chunk : List Nat) (hlo : 204 ≤ instrByte chunk 0)
    (hhi : instrByte chunk 0 < 220) :
    (decode_instruction chunk).opcode = .Op2 .RotR := by
  show instrFromByte (instrByte chunk 0) = _
  unfold instrFromByte
  split_ifs <;> first | rfl | omega

/-- Claim C2: for every opcode byte in the `Div` range (96..112) or the
`Mod` range (112..128), the destination register `r3` receives the
quotient `src1 / src2` — `Mod` returns the quotient, not the remainder —
and a zero divisor substitutes the `Special1` value (the little-endian
`u64` of the first 8 bytes of finalizing a clone of the current
`prog_digest`); the VM never faults on division by zero (the embedding is
a total function). -/
theorem C2_div_mod_quotient (D : DigestSpec) (rom : Rom) (vm : VMState D.State)
    (hlo : 96 ≤ instrByte (fetchChunk vm) 0)
    (hhi : instrByte (fetchChunk vm) 0 < 128) :
    (execute_one_instruction D rom vm).regs =
      (evalOperand D rom
          (evalOperand D rom vm (decode_instruction (fetchChunk vm)).op1
            (decode_instruction (fetchChunk vm)).r1
            (decode_instruction (fetchChunk vm)).lit1).2
          (decode_instruction (fetchChunk vm)).op2
          (decode_instruction (fetchChunk vm)).r2
          (decode_instruction (fetchChunk vm)).lit2).2.regs.set
        (decode_instruction (fetchChunk vm)).r3
        (if (evalOperand D rom
              (evalOperand D rom vm (decode_instruction (fetchChunk vm)).op1
                (decode_instruction (fetchChunk vm)).r1
                (decode_instruction (fetchChunk vm)).lit1).2
              (decode_instruction (fetchChunk vm)).op2
              (decode_instruction (fetchChunk vm)).r2
              (decode_instruction (fetchChunk vm)).lit2).1 = 0
         then special1Val D vm.prog_digest
         else
          (evalOperand D rom vm (decode_instruction (fetchChunk vm)).op1
            (decode_instruction (fetchChunk vm)).r1
            (decode_instruction (fetchChunk vm)).lit1).1 /
          (evalOperand D rom
            (evalOperand D rom vm (decode_instruction (fetchChunk vm)).op1
              (decode_instruction (fetchChunk vm)).r1
              (decode_instruction (fetchChunk vm)).lit1).2
            (decode_instruction (fetchChunk vm)).op2
            (decode_instruction (fetchChunk vm)).r2
            (decode_instruction (fetchChunk vm)).lit2).1) := by
  have hdig : (evalOperand D rom
      (evalOperand D rom vm (decode_instruction (fetchChunk vm)).op1
        (decode_instruction (fetchChunk vm)).r1
        (decode_instruction (fetchChunk vm)).lit1).2
      (decode_instruction (fetchChunk vm)).op2
      (decode_instruction (fetchChunk vm)).r2
      (decode_instruction (fetchChunk vm)).lit2).2.prog_digest =
      vm.prog_digest := by
    rw [evalOperand_prog_digest, evalOperand_prog_digest]
  by_cases hdv : instrByte (fetchChunk vm) 0 < 112
  · rw [execute_op3 D rom vm .Div (decode_div _ (by omega) (by omega))]
    simp only [op3Result, special1Val, hdig]
  · rw [execute_op3 D rom vm .Mod (decode_mod _ (by omega) (by omega))]
    simp only [op3Result, special1Val, hdig]

/-- Witness for C2: a `Div` instruction with literal sources `10` and `0`
stores the `Special1` value (here `0`) in register 0. -/
theorem C2_div_mod_quotient_witness :
    (execute_one_instruction unitDigest smallRom vmDivTest).regs =
      (List.replicate 32 0).set 0 0 := by
  have h := C2_div_mod_quotient unitDigest smallRom vmDivTest
    (by decide) (by decide)
  rw [h]
  decide

/-- Claim C5: for every opcode byte in the `RotL` range (188..204) or the
`RotR` range (204..220), the rotation amount is the decoded 5-bit `r1`
register-index field (`r1 & 31 < 32`) — even when operand `op1` is not a
`Reg` operand (the statement quantifies over all states, so over all
operand kinds) — and `r3` receives `src1` rotated left resp. right by that
amount. -/
theorem C5_rotation_amount (D : DigestSpec) (rom : Rom) (vm : VMState D.State)
    (hlo : 188 ≤ instrByte (fetchChunk vm) 0)
    (hhi : instrByte (fetchChunk vm) 0 < 220) :
    (decode_instruction (fetchChunk vm)).r1 < 32 ∧
    (decode_instruction (fetchChunk vm)).r1 =
      ((instrByte (fetchChunk vm) 2 <<< 8 ||| instrByte (fetchChunk vm) 3)
        >>> 10) % 256 &&& 31 ∧
    (execute_one_instruction D rom vm).regs =
      (evalOperand D rom vm (decode_instruction (fetchChunk vm)).op1
        (decode_instruction (fetchChunk vm)).r1
        (decode_instruction (fetchChunk vm)).lit1).2.regs.set
      (decode_instruction (fetchChunk vm)).r3
      (if instrByte (fetchChunk vm) 0 < 204 then
        rotl64
          (evalOperand D rom vm (decode_instruction (fetchChunk vm)).op1
            (decode_instruction (fetchChunk vm)).r1
            (decode_instruction (fetchChunk vm)).lit1).1
          (decode_instruction (fetchChunk vm)).r1
       else
        rotr64
          (evalOperand D rom vm (decode_instruction (fetchChunk vm)).op1
            (decode_instruction (fetchChunk vm)).r1
            (decode_instruction (fetchChunk vm)).lit1).1
          (decode_instruction (fetchChunk vm)).r1) := by
  refine ⟨?_, rfl, ?_⟩
  · show (_ >>> 10) % 256 &&& 31 < 32
    have := Nat.and_le_right
      (n := ((instrByte (fetchChunk vm) 2 <<< 8 ||| instrByte (fetchChunk vm) 3)
        >>> 10) % 256) (m := 31)
    omega
  · by_cases hrl : instrByte (fetchChunk vm) 0 < 204
    · rw [execute_op2 D rom vm .RotL (decode_rotl _ (by omega) (by omega))]
      simp only [op2Result, if_pos hrl]
    · rw [execute_op2 D rom vm .RotR (decode_rotr _ (by omega) (by omega))]
      simp only [op2Result, if_neg hrl]

/-- Witness for C5: a `RotL` instruction with literal source `5` (not a
register operand) and `r1 = 3` stores `5 <<< 3 = 40` in register 0. -/
theorem C5_rotation_amount_witness :
    (execute_one_instruction unitDigest smallRom vmRotTest).regs =
      (List.replicate 32 0).set 0 40 := by
  have h := C5_rotation_amount unitDigest smallRom vmRotTest
    (by decide) (by decide)
  rw [h.2.2]
  decide

/-! ## Claim C10: instruction fetch never goes out of bounds -/

/-- Claim C10: for a program of `nb_instrs ≥ 1` instructions (as created by
`Program::new` and preserved by `shuffle`) and any `u32` index, the fetch
offset `(i * 20) mod (nb_instrs * 20)` always satisfies
`start + 20 ≤ length` — the length is a positive multiple of the 20-byte
instruction size — so `Program::at` returns a full 20-byte chunk and never
panics, including after `ip` wraps around `u32`. -/
theorem C10_program_fetch_safe (nb : Nat) (hnb : 1 ≤ nb) (prog : List Nat)
    (hlen : prog.length = nb * 20) (i : Nat) (hi : i < 2 ^ 32) :
    (programNew nb).length = nb * 20 ∧
    (∀ (HP : HPrimeSpec) (seed : List Nat),
      (programShuffle HP prog seed).length = nb * 20) ∧
    ∃ chunk, programAt prog i = some chunk ∧ chunk.length = 20 ∧
      chunk = (prog.drop ((i * 20) % (nb * 20))).take 20 := by
  have hmul : (i * 20) % 2 ^ 64 = i * 20 := by
    apply Nat.mod_eq_of_lt
    calc i * 20 < 2 ^ 32 * 20 := by omega
      _ ≤ 2 ^ 64 := by norm_num
  have hpos : 0 < nb * 20 := by omega
  have hstart : (i * 20) % (nb * 20) < nb * 20 := Nat.mod_lt _ hpos
  have hdvd : 20 ∣ (i * 20) % (nb * 20) := by
    rw [Nat.dvd_mod_iff ⟨nb, by ring⟩]
    exact ⟨i, by ring⟩
  obtain ⟨s, hs⟩ := hdvd
  have hbound : (i * 20) % (nb * 20) + 20 ≤ nb * 20 := by omega
  refine ⟨by simp [programNew], fun HP seed => by
    rw [programShuffle, HP.length_run, hlen], ?_⟩
  refine ⟨(prog.drop ((i * 20) % (nb * 20))).take 20, ?_, ?_, rfl⟩
  · unfold programAt
    rw [if_neg (by omega), hmul, hlen]
    rw [if_pos hbound]
  · rw [List.length_take, List.length_drop, hlen]
    omega

/-- Witness for C10 at `nb = 1`, index 7 (which wraps to offset 0). -/
theorem C10_program_fetch_safe_witness :
    ∃ chunk, programAt (List.replicate 20 0) 7 = some chunk ∧
      chunk.length = 20 ∧
      chunk = ((List.replicate 20 0 : List Nat).drop ((7 * 20) % (1 * 20))).take 20 :=
  (C10_program_fetch_safe 1 (by decide) (List.replicate 20 0) (by decide) 7
    (by decide)).2.2

/-! ## Claim C7: batch hashing equals the single-hash path, in order -/

/-- Claim C7: on a non-empty batch, `hash_batch_handler` returns `Ok` with
exactly one hash per preimage, and the `i`-th output is the single-hash
path `hex(hash(p_i, rom, 8, 256))` with the same ROM — the order is
stable.  The `assert!`s of `hash` hold at `(8, 256)`. -/
theorem C7_batch_equivalence (D : DigestSpec) (HP : HPrimeSpec) (rom : Rom)
    (preimages : List String) (hne : preimages ≠ []) :
    hash_asserts 8 256 = true ∧
    ∃ hs, hash_batch_handler D HP rom preimages = .ok hs ∧
      hs.length = preimages.length ∧
      ∀ i, i < preimages.length →
        hs.getD i ("") = hash_handler D HP rom (preimages.getD i ("")) := by
  refine ⟨rfl, ?_⟩
  refine ⟨preimages.map
    (fun preimage => hexEncode (hash D HP (strBytes preimage) rom 8 256)),
    ?_, ?_, ?_⟩
  · unfold hash_batch_handler
    rw [if_neg (by simpa using hne)]
  · exact List.length_map _ _
  · intro i hi
    rw [List.getD_eq_getElem?_getD, List.getD_eq_getElem?_getD,
      List.getElem?_map]
    cases hx : preimages[i]? with
    | none =>
        rw [List.getElem?_eq_none_iff] at hx
        omega
    | some p => rfl

/-- Witness for C7 on the one-element batch `["abc"]` with the concrete
digest, expansion and ROM instances. -/
theorem C7_batch_equivalence_witness :
    hash_asserts 8 256 = true ∧
    ∃ hs, hash_batch_handler unitDigest zeroHPrime smallRom [("abc")] = .ok hs ∧
      hs.length = [("abc")].length ∧
      ∀ i, i < [("abc")].length →
        hs.getD i ("") =
          hash_handler unitDigest zeroHPrime smallRom ([("abc")].getD i ("")) :=
  C7_batch_equivalence unitDigest zeroHPrime smallRom [("abc")] (by decide)

end Eng
